import Mathlib

/-!
Verification of the structlm schema core (`src/types.ts` and `src/schema.ts`).

The embedding models the library at the level of already-decoded JSON
values: the host functions `JSON.parse` / `JSON.stringify` that the source
delegates to at every recursion step form an inverse pair on JSON values,
so the text round-trip the source performs per element/property
(`JSON.stringify` the sub-value, recursively `parse` the text) is the
identity on the generic value and the recursive calls here pass the
sub-value directly.  The `InvalidJson` failure of the text boundary is kept
in the error taxonomy but is never produced by the value-level parser.

The source throws `Error` objects whose messages are built by prefixing
positional context (`Array item at index ${i}: ...`, `Property '${key}':
...`) onto the inner message; the embedding keeps the same information as a
structured error tree, one constructor per message shape of the source.
-/

namespace Structlm

/-- A generic JSON value, the result of the host `JSON.parse`: the
`unknown` the source narrows by `typeof` / `Array.isArray` checks.
Object members keep their order (JS objects enumerate keys in insertion
order); members coming out of `JSON.parse` have unique keys. -/
inductive JsonValue where
  | str (s : String)
  | num (n : Int)
  | bool (b : Bool)
  | null
  | arr (items : List JsonValue)
  | obj (members : List (String × JsonValue))
deriving Repr

/-- The JS `typeof` operator on a JSON-parsed value: `null`, arrays and
objects all answer `"object"`. -/
def jsTypeof : JsonValue → String
  | .str _ => "string"
  | .num _ => "number"
  | .bool _ => "boolean"
  | .null => "object"
  | .arr _ => "object"
  | .obj _ => "object"

/-- The JS `Array.isArray` test. -/
def isJsArray : JsonValue → Bool
  | .arr _ => true
  | _ => false

/-- A validator as stored on a schema node: the executable predicate
(`validationFn`) paired with the display text the source recovers via
`Function.prototype.toString` for stringify hints.  The predicate is over
the generic value; `parse` only ever applies it after the node's type
check, so it only sees values of the node's kind. -/
structure Validator where
  fn : JsonValue → Bool
  display : String

/-- Error kinds of the core, one per distinct `throw new Error(...)`
message shape in `types.ts` / `schema.ts`.  `validationFailed` carries the
value whose serialization the source embeds in the message. -/
inductive ParseError where
  | invalidJson (msg : String)
  | typeMismatch (expected : String) (actual : String)
  | validationFailed (value : JsonValue)
  | missingRequiredProperty (key : String)
  | arrayItemFailed (index : Nat) (inner : ParseError)
  | propertyFailed (key : String) (inner : ParseError)
deriving Repr

/-- A schema tree: the five concrete `Schema` subclasses.  Every node
carries the base class fields `validationFn` (optional) and `isOptional`
(default `false`); `arr` holds its one item schema and `obj` its ordered
field-name-to-schema shape. -/
inductive Schema where
  | str (validationFn : Option Validator) (isOptional : Bool)
  | num (validationFn : Option Validator) (isOptional : Bool)
  | bool (validationFn : Option Validator) (isOptional : Bool)
  | arr (itemSchema : Schema) (validationFn : Option Validator) (isOptional : Bool)
  | obj (shape : List (String × Schema)) (validationFn : Option Validator) (isOptional : Bool)

namespace Schema

/-- The base-class field `validationFn`. -/
def validationFn : Schema → Option Validator
  | .str v _ => v
  | .num v _ => v
  | .bool v _ => v
  | .arr _ v _ => v
  | .obj _ v _ => v

/-- The base-class field `isOptional`. -/
def isOptional : Schema → Bool
  | .str _ o => o
  | .num _ o => o
  | .bool _ o => o
  | .arr _ _ o => o
  | .obj _ _ o => o

/-- The builder mutator `validate(fn)`: stores the validator (replacing a
prior one) and returns the node. -/
def validate : Schema → Validator → Schema
  | .str _ o, f => .str (some f) o
  | .num _ o, f => .num (some f) o
  | .bool _ o, f => .bool (some f) o
  | .arr i _ o, f => .arr i (some f) o
  | .obj s _ o, f => .obj s (some f) o

/-- The builder mutator `optional()`: sets the flag and returns the node. -/
def optional : Schema → Schema
  | .str v _ => .str v true
  | .num v _ => .num v true
  | .bool v _ => .bool v true
  | .arr i v _ => .arr i v true
  | .obj s v _ => .obj s v true

end Schema

/-- `Schema.runValidation`: apply the stored predicate if any, else accept. -/
def runValidation (v : Option Validator) (x : JsonValue) : Bool :=
  match v with
  | some f => f.fn x
  | none => true

/-- `Schema.buildStringifyResult`: base type text plus one hint comment
block when a validator and/or the optional flag is present. -/
def buildStringifyResult (validationFn : Option Validator) (isOptional : Bool)
    (baseType : String) : String :=
  let hints : List String :=
    (match validationFn with
     | some f => [f.display]
     | none => []) ++ (if isOptional then ["optional"] else [])
  if hints.length > 0 then
    baseType ++ " /* " ++ String.intercalate ", " hints ++ " */"
  else
    baseType

mutual

/-- `stringify()` of each schema variant (`schema.ts`): primitives render
their keyword, arrays bracket the item schema, objects comma-join
`key: childStringify` over the shape in declaration order; all five feed
the base text through `buildStringifyResult`. -/
def Schema.stringify : Schema → String
  | .str v o => buildStringifyResult v o "string"
  | .num v o => buildStringifyResult v o "number"
  | .bool v o => buildStringifyResult v o "boolean"
  | .arr item v o => buildStringifyResult v o ("[" ++ item.stringify ++ "]")
  | .obj shape v o =>
      buildStringifyResult v o
        ("\x7b " ++ String.intercalate ", " (stringifyShape shape) ++ " \x7d")

/-- The `Object.entries(this.shape).map(([key, schema]) => ...)` of
`ObjectSchema.stringify`. -/
def stringifyShape : List (String × Schema) → List String
  | [] => []
  | (key, sch) :: rest => (key ++ ": " ++ sch.stringify) :: stringifyShape rest

end

mutual

/-- `parse` of each schema variant, after the host `JSON.parse` has
produced the generic value: the `typeof` / `Array.isArray` narrowing, the
recursive descent over array items and declared object fields, and the
node-level validation, exactly as in `schema.ts`. -/
def Schema.parse : Schema → JsonValue → Except ParseError JsonValue
  | .str v _, parsed =>
      if jsTypeof parsed != "string" then
        .error (.typeMismatch "string" (jsTypeof parsed))
      else if !runValidation v parsed then
        .error (.validationFailed parsed)
      else
        .ok parsed
  | .num v _, parsed =>
      if jsTypeof parsed != "number" then
        .error (.typeMismatch "number" (jsTypeof parsed))
      else if !runValidation v parsed then
        .error (.validationFailed parsed)
      else
        .ok parsed
  | .bool v _, parsed =>
      if jsTypeof parsed != "boolean" then
        .error (.typeMismatch "boolean" (jsTypeof parsed))
      else if !runValidation v parsed then
        .error (.validationFailed parsed)
      else
        .ok parsed
  | .arr itemSchema v _, parsed =>
      match parsed with
      | .arr items =>
          match parseItems itemSchema items 0 with
          | .error e => .error e
          | .ok result =>
              if !runValidation v (.arr result) then
                .error (.validationFailed (.arr result))
              else
                .ok (.arr result)
      | _ => .error (.typeMismatch "array" (jsTypeof parsed))
  | .obj shape v _, parsed =>
      match parsed with
      | .obj members =>
          match parseFields shape members with
          | .error e => .error e
          | .ok result =>
              if !runValidation v (.obj result) then
                .error (.validationFailed (.obj result))
              else
                .ok (.obj result)
      | _ =>
          .error (.typeMismatch "object"
            (if isJsArray parsed then "array" else jsTypeof parsed))

/-- The element loop of `ArraySchema.parse`: each element is re-serialized
and fed to the item schema's `parse`; a failure is wrapped with the
element's index and aborts the loop. -/
def parseItems (itemSchema : Schema) : List JsonValue → Nat → Except ParseError (List JsonValue)
  | [], _ => .ok []
  | x :: xs, i =>
      match Schema.parse itemSchema x with
      | .error e => .error (.arrayItemFailed i e)
      | .ok px =>
          match parseItems itemSchema xs (i + 1) with
          | .error e => .error e
          | .ok rest => .ok (px :: rest)

/-- The declared-field loop of `ObjectSchema.parse`: for each shape entry
in declaration order, an absent key is skipped when the field schema is
optional and is a `missingRequiredProperty` failure otherwise; a present
value is re-serialized and fed to the field schema's `parse`, a failure
being wrapped with the key; successes are inserted into the result in
loop order. -/
def parseFields : List (String × Schema) → List (String × JsonValue) →
    Except ParseError (List (String × JsonValue))
  | [], _ => .ok []
  | (key, sch) :: rest, members =>
      match members.lookup key with
      | none =>
          if sch.isOptional then
            parseFields rest members
          else
            .error (.missingRequiredProperty key)
      | some value =>
          match Schema.parse sch value with
          | .error e => .error (.propertyFailed key e)
          | .ok pv =>
              match parseFields rest members with
              | .error e => .error e
              | .ok rs => .ok ((key, pv) :: rs)

end

/-! ### Spec-side definitions

These definitions follow the specification's words rather than the source,
to be compared with the source-derived functions above. -/

/-- Modelled from the spec (§4.4): the hint comment block appended after
the base type text — a single block of the comma-space-joined present
hints, validator display text first, then the word `optional`; empty when
neither is present. -/
def specHintComment (validatorText : Option String) (isOptional : Bool) : String :=
  match validatorText, isOptional with
  | none, false => ""
  | some t, false => " /* " ++ t ++ " */"
  | none, true => " /* optional */"
  | some t, true => " /* " ++ t ++ ", optional */"

/-- The base type text of a schema node, before any hint comment: the
primitive keyword, the bracketed item rendering, or the braced shape
rendering. -/
def baseTypeText : Schema → String
  | .str _ _ => "string"
  | .num _ _ => "number"
  | .bool _ _ => "boolean"
  | .arr item _ _ => "[" ++ item.stringify ++ "]"
  | .obj shape _ _ => "\x7b " ++ String.intercalate ", " (stringifyShape shape) ++ " \x7d"

/-- Size of a value found by `List.lookup`: it is a strict subterm of the
member list. -/
theorem sizeOf_lookup {ms : List (String × JsonValue)} {k : String} {y : JsonValue}
    (h : ms.lookup k = some y) : sizeOf y < sizeOf ms := by
  induction ms with
  | nil => simp [List.lookup] at h
  | cons p rest ih =>
      obtain ⟨a, b⟩ := p
      simp only [List.lookup] at h
      by_cases hk : k == a
      · simp [hk] at h
        subst h
        simp
        omega
      · simp [hk] at h
        have := ih h
        simp
        omega

mutual

/-- Equality of JSON values up to object field order (the comparison under
which the spec's round-trip is stated): primitives and arrays compare
structurally, objects compare as key-value maps in both directions. -/
def JsonValue.equiv : JsonValue → JsonValue → Bool
  | .str a, .str b => a == b
  | .num a, .num b => a == b
  | .bool a, .bool b => a == b
  | .null, .null => true
  | .arr xs, .arr ys => equivList xs ys
  | .obj xs, .obj ys => equivMembers xs ys && equivMembers ys xs
  | _, _ => false
termination_by a b => sizeOf a + sizeOf b
decreasing_by all_goals (simp_wf; omega)

/-- Pointwise `equiv` on element lists (array order is significant). -/
def equivList : List JsonValue → List JsonValue → Bool
  | [], [] => true
  | x :: xs, y :: ys => JsonValue.equiv x y && equivList xs ys
  | _, _ => false
termination_by xs ys => sizeOf xs + sizeOf ys
decreasing_by all_goals (simp_wf; omega)

/-- One direction of the object comparison: every member of the first list
has an `equiv` value under its key in the second. -/
def equivMembers : List (String × JsonValue) → List (String × JsonValue) → Bool
  | [], _ => true
  | (k, x) :: rest, ys =>
      (match h : ys.lookup k with
       | some y => JsonValue.equiv x y
       | none => false) && equivMembers rest ys
termination_by xs ys => sizeOf xs + sizeOf ys
decreasing_by
  all_goals simp_wf
  all_goals first
    | omega
    | (have hsz := sizeOf_lookup h; omega)

end

mutual

/-- Well-formedness of a JSON value as produced by the host `JSON.parse`:
object member lists bind each key at most once, recursively. -/
def JsonValue.wf : JsonValue → Bool
  | .arr xs => wfList xs
  | .obj ms => nodupKeys ms && wfMembers ms
  | _ => true

/-- `wf` on every element of an array. -/
def wfList : List JsonValue → Bool
  | [] => true
  | x :: xs => x.wf && wfList xs

/-- `wf` on every member value of an object. -/
def wfMembers : List (String × JsonValue) → Bool
  | [] => true
  | (_, x) :: rest => x.wf && wfMembers rest

/-- No key occurs twice in a member list. -/
def nodupKeys : List (String × JsonValue) → Bool
  | [] => true
  | (k, _) :: rest => (rest.lookup k).isNone && nodupKeys rest

end

mutual

/-- Modelled from the spec (§8, claim wording): `v` conforms to a schema
when it has the schema's shape, objects carry no undeclared keys and all
required fields, and every attached validator accepts its node's value. -/
def conforms : Schema → JsonValue → Bool
  | .str v _, .str s => runValidation v (.str s)
  | .num v _, .num n => runValidation v (.num n)
  | .bool v _, .bool b => runValidation v (.bool b)
  | .arr item v _, .arr xs => conformsList item xs && runValidation v (.arr xs)
  | .obj shape v _, .obj ms =>
      ms.all (fun p => shape.any (fun q => q.1 == p.1)) &&
        conformsFields shape ms && runValidation v (.obj ms)
  | _, _ => false

/-- Every array element conforms to the item schema. -/
def conformsList : Schema → List JsonValue → Bool
  | _, [] => true
  | item, x :: xs => conforms item x && conformsList item xs

/-- Every declared field conforms: a present value conforms to the field
schema, an absent key is allowed only for an optional field schema. -/
def conformsFields : List (String × Schema) → List (String × JsonValue) → Bool
  | [], _ => true
  | (k, sch) :: rest, ms =>
      (match ms.lookup k with
       | some x => conforms sch x
       | none => sch.isOptional) && conformsFields rest ms

end

/-- A validator that cannot observe object field order or duplicate
representation: it answers alike on `equiv` values.  This is what it means
for the stored predicate to be a predicate over the node's value type,
where values compare with field order irrelevance. -/
def Validator.respectsEquiv (f : Validator) : Prop :=
  ∀ a b, JsonValue.equiv a b = true → f.fn a = f.fn b

/-- `respectsEquiv` for an optional validator. -/
def optRespects : Option Validator → Prop
  | some f => f.respectsEquiv
  | none => True

mutual

/-- Every validator attached anywhere in a schema tree respects `equiv`. -/
def Schema.respects : Schema → Prop
  | .str v _ => optRespects v
  | .num v _ => optRespects v
  | .bool v _ => optRespects v
  | .arr item v _ => optRespects v ∧ item.respects
  | .obj shape v _ => optRespects v ∧ shapeRespects shape

/-- `Schema.respects` for every field schema of a shape. -/
def shapeRespects : List (String × Schema) → Prop
  | [] => True
  | (_, sch) :: rest => sch.respects ∧ shapeRespects rest

end

/-! ### Helper lemmas -/

theorem intercalate_singleton (s t : String) : String.intercalate s [t] = t := by
  simp [String.intercalate, String.intercalate.go]

theorem intercalate_pair (s t u : String) : String.intercalate s [t, u] = t ++ s ++ u := by
  simp [String.intercalate, String.intercalate.go]

/-- The shared hint routine of the source renders exactly the
specification's comment block. -/
theorem buildStringifyResult_eq_spec (v : Option Validator) (o : Bool) (base : String) :
    buildStringifyResult v o base = base ++ specHintComment (v.map Validator.display) o := by
  cases v <;> cases o <;>
    simp [buildStringifyResult, specHintComment, intercalate_singleton, intercalate_pair,
      String.append_assoc]

/-- `stringifyShape` is the entry map of `ObjectSchema.stringify`. -/
theorem stringifyShape_eq_map (shape : List (String × Schema)) :
    stringifyShape shape = shape.map (fun p => p.1 ++ ": " ++ p.2.stringify) := by
  induction shape with
  | nil => simp [stringifyShape]
  | cons p rest ih =>
      obtain ⟨k, sch⟩ := p
      simp [stringifyShape, ih]

/-- Every variant feeds its base text through the shared routine. -/
theorem stringify_eq_base_hint (s : Schema) :
    s.stringify =
      baseTypeText s ++
        specHintComment ((Schema.validationFn s).map Validator.display) (Schema.isOptional s) := by
  cases s <;>
    simp [Schema.stringify, baseTypeText, Schema.validationFn, Schema.isOptional,
      buildStringifyResult_eq_spec]

/-- The two builder mutators commute on the node itself. -/
theorem validate_optional_comm (s : Schema) (f : Validator) :
    (s.validate f).optional = (s.optional).validate f := by
  cases s <;> simp [Schema.validate, Schema.optional]

/-- `parse` never reads the node's own optional flag. -/
theorem parse_optional (s : Schema) (x : JsonValue) :
    (Schema.optional s).parse x = s.parse x := by
  cases s <;> cases x <;> simp [Schema.optional, Schema.parse]

/-- The item loop is unaffected by the item schema's optional flag. -/
theorem parseItems_optional (item : Schema) (xs : List JsonValue) (i : Nat) :
    parseItems (Schema.optional item) xs i = parseItems item xs i := by
  induction xs generalizing i with
  | nil => simp [parseItems]
  | cons x rest ih => simp [parseItems, parse_optional, ih]

/-- Every schema variant rejects JSON `null` with a type mismatch. -/
theorem parse_null_typeMismatch (sch : Schema) :
    ∃ e a, Schema.parse sch .null = .error (.typeMismatch e a) := by
  cases sch with
  | str v o => exact ⟨"string", "object", by simp [Schema.parse, jsTypeof]⟩
  | num v o => exact ⟨"number", "object", by simp [Schema.parse, jsTypeof]⟩
  | bool v o => exact ⟨"boolean", "object", by simp [Schema.parse, jsTypeof]⟩
  | arr item v o => exact ⟨"array", "object", by simp [Schema.parse, jsTypeof]⟩
  | obj shape v o => exact ⟨"object", "object", by simp [Schema.parse, jsTypeof, isJsArray]⟩

/-- The declared-field loop splits over an append of shape segments. -/
theorem parseFields_append (s₁ s₂ : List (String × Schema)) (ms : List (String × JsonValue)) :
    parseFields (s₁ ++ s₂) ms =
      match parseFields s₁ ms with
      | .error e => .error e
      | .ok r₁ =>
          match parseFields s₂ ms with
          | .error e => .error e
          | .ok r₂ => .ok (r₁ ++ r₂) := by
  induction s₁ with
  | nil =>
      cases h : parseFields s₂ ms <;> simp [parseFields, h]
  | cons p rest ih =>
      obtain ⟨k, sch⟩ := p
      cases hlk : ms.lookup k with
      | none =>
          cases ho : sch.isOptional <;>
            simp [parseFields, hlk, ho, ih]
      | some x =>
          cases hp : Schema.parse sch x with
          | error e => simp [parseFields, hlk, hp]
          | ok px =>
              cases hr : parseFields rest ms with
              | error e =>
                  cases h₂ : parseFields s₂ ms <;>
                    simp [parseFields, hlk, hp, ih, hr, h₂]
              | ok rs =>
                  cases h₂ : parseFields s₂ ms <;>
                    simp [parseFields, hlk, hp, ih, hr, h₂]

/-- The element loop splits over an append of element segments, the second
segment starting at the shifted index. -/
theorem parseItems_append (item : Schema) (xs ys : List JsonValue) (i : Nat) :
    parseItems item (xs ++ ys) i =
      match parseItems item xs i with
      | .error e => .error e
      | .ok r₁ =>
          match parseItems item ys (i + xs.length) with
          | .error e => .error e
          | .ok r₂ => .ok (r₁ ++ r₂) := by
  induction xs generalizing i with
  | nil =>
      cases h : parseItems item ys i <;> simp [parseItems, h]
  | cons x rest ih =>
      cases hp : Schema.parse item x with
      | error e => simp [parseItems, hp]
      | ok px =>
          have harith : i + 1 + rest.length = i + (rest.length + 1) := by omega
          cases hr : parseItems item rest (i + 1) with
          | error e =>
              cases h₂ : parseItems item ys (i + (rest.length + 1)) <;>
                simp [parseItems, hp, ih, hr, harith, h₂]
          | ok rs =>
              cases h₂ : parseItems item ys (i + (rest.length + 1)) <;>
                simp [parseItems, hp, ih, hr, harith, h₂]

/-- The keys of a successful field-loop result are the declared keys, in
declaration order, restricted to those present in the input members. -/
theorem parseFields_keys (shape : List (String × Schema)) (ms : List (String × JsonValue))
    (r : List (String × JsonValue)) (h : parseFields shape ms = .ok r) :
    r.map Prod.fst = (shape.filter (fun p => (ms.lookup p.1).isSome)).map Prod.fst := by
  induction shape generalizing r with
  | nil =>
      simp [parseFields] at h
      simp [← h]
  | cons p rest ih =>
      obtain ⟨k, sch⟩ := p
      cases hlk : ms.lookup k with
      | none =>
          cases ho : sch.isOptional <;> simp [parseFields, hlk, ho] at h
          simp [List.filter, hlk, ih r h]
      | some x =>
          cases hp : Schema.parse sch x with
          | error e => simp [parseFields, hlk, hp] at h
          | ok px =>
              cases hr : parseFields rest ms with
              | error e => simp [parseFields, hlk, hp, hr] at h
              | ok rs =>
                  simp [parseFields, hlk, hp, hr] at h
                  subst h
                  simp [List.filter, hlk, ih rs hr]

/-- Removing a member whose key is never looked up does not change any
other key's lookup. -/
theorem lookup_ignore (k' k : String) (x : JsonValue)
    (ms₁ ms₂ : List (String × JsonValue)) (hne : ¬(k' = k)) :
    (ms₁ ++ (k, x) :: ms₂).lookup k' = (ms₁ ++ ms₂).lookup k' := by
  induction ms₁ with
  | nil =>
      have hb : (k' == k) = false := beq_eq_false_iff_ne.mpr hne
      simp [List.lookup, hb]
  | cons p rest ih =>
      obtain ⟨a, b⟩ := p
      by_cases hk : k' = a <;> simp [List.lookup, hk, ih]

/-- The field loop only consults the input at declared keys: a member
under an undeclared key can be dropped without changing the outcome. -/
theorem parseFields_ignore (shape : List (String × Schema)) (k : String) (x : JsonValue)
    (ms₁ ms₂ : List (String × JsonValue))
    (hund : shape.all (fun p => p.1 != k) = true) :
    parseFields shape (ms₁ ++ (k, x) :: ms₂) = parseFields shape (ms₁ ++ ms₂) := by
  induction shape with
  | nil => simp [parseFields]
  | cons p rest ih =>
      obtain ⟨k₀, sch⟩ := p
      simp only [List.all_cons, Bool.and_eq_true, bne_iff_ne, ne_eq] at hund
      have hlk := lookup_ignore k₀ k x ms₁ ms₂ hund.1
      have ih' := ih hund.2
      cases h₀ : (ms₁ ++ ms₂).lookup k₀ with
      | none => cases ho : sch.isOptional <;> simp [parseFields, hlk, h₀, ho, ih']
      | some y =>
          cases hp : Schema.parse sch y with
          | error e => simp [parseFields, hlk, h₀, hp]
          | ok py => simp [parseFields, hlk, h₀, hp, ih']

/-- A key that heads no pair is not found by `lookup`. -/
theorem lookup_eq_none_of_not_mem (l : List (String × JsonValue)) (k : String)
    (h : k ∉ l.map Prod.fst) : l.lookup k = none := by
  induction l with
  | nil => simp [List.lookup]
  | cons p rest ih =>
      obtain ⟨a, b⟩ := p
      simp only [List.map_cons, List.mem_cons] at h
      push_neg at h
      have hb : (k == a) = false := beq_eq_false_iff_ne.mpr h.1
      simp [List.lookup, hb, ih h.2]

/-- A successful `lookup` result is a member of the list. -/
theorem lookup_mem {l : List (String × JsonValue)} {k : String} {x : JsonValue}
    (h : l.lookup k = some x) : (k, x) ∈ l := by
  induction l with
  | nil => simp [List.lookup] at h
  | cons p rest ih =>
      obtain ⟨a, b⟩ := p
      by_cases hk : k == a
      · simp [List.lookup, hk] at h
        subst h
        simp only [List.mem_cons]
        exact Or.inl (by simp [show k = a from beq_iff_eq.mp hk])
      · simp [List.lookup, hk] at h
        exact List.mem_cons_of_mem _ (ih h)

/-- Under unique keys, membership determines the `lookup` answer. -/
theorem nodup_lookup_mem {ms : List (String × JsonValue)} {k : String} {x : JsonValue}
    (hnd : nodupKeys ms = true) (hmem : (k, x) ∈ ms) : ms.lookup k = some x := by
  induction ms with
  | nil => simp at hmem
  | cons p rest ih =>
      obtain ⟨a, b⟩ := p
      simp only [nodupKeys, Bool.and_eq_true, Option.isNone_iff_eq_none] at hnd
      rcases List.mem_cons.mp hmem with heq | hrest
      · obtain ⟨hka, hxb⟩ := Prod.mk.injEq .. ▸ heq
        subst hka
        subst hxb
        simp [List.lookup]
      · have hlk := ih hnd.2 hrest
        by_cases hk : k = a
        · subst hk
          rw [hnd.1] at hlk
          simp at hlk
        · have hb : (k == a) = false := beq_eq_false_iff_ne.mpr hk
          simp [List.lookup, hb, hlk]

/-- `wfMembers` gives well-formedness of each member value. -/
theorem wfMembers_mem {ms : List (String × JsonValue)} {k : String} {x : JsonValue}
    (h : wfMembers ms = true) (hmem : (k, x) ∈ ms) : x.wf = true := by
  induction ms with
  | nil => simp at hmem
  | cons p rest ih =>
      obtain ⟨a, b⟩ := p
      simp only [wfMembers, Bool.and_eq_true] at h
      rcases List.mem_cons.mp hmem with heq | hrest
      · obtain ⟨-, hxb⟩ := Prod.mk.injEq .. ▸ heq
        exact hxb ▸ h.1
      · exact ih h.2 hrest

/-- `wfList` gives well-formedness of each element. -/
theorem wfList_mem {xs : List JsonValue} {x : JsonValue}
    (h : wfList xs = true) (hmem : x ∈ xs) : x.wf = true := by
  induction xs with
  | nil => simp at hmem
  | cons y rest ih =>
      simp only [wfList, Bool.and_eq_true] at h
      rcases List.mem_cons.mp hmem with heq | hrest
      · exact heq ▸ h.1
      · exact ih h.2 hrest

/-- `conformsList` gives conformance of each element. -/
theorem conformsList_mem {item : Schema} {xs : List JsonValue} {x : JsonValue}
    (h : conformsList item xs = true) (hmem : x ∈ xs) : conforms item x = true := by
  induction xs with
  | nil => simp at hmem
  | cons y rest ih =>
      simp only [conformsList, Bool.and_eq_true] at h
      rcases List.mem_cons.mp hmem with heq | hrest
      · exact heq ▸ h.1
      · exact ih h.2 hrest

/-- `shapeRespects` gives `respects` for each field schema. -/
theorem shapeRespects_mem {shape : List (String × Schema)} {k : String} {sch : Schema}
    (h : shapeRespects shape) (hmem : (k, sch) ∈ shape) : sch.respects := by
  induction shape with
  | nil => simp at hmem
  | cons p rest ih =>
      obtain ⟨a, b⟩ := p
      rcases List.mem_cons.mp hmem with heq | hrest
      · obtain ⟨-, hb⟩ := Prod.mk.injEq .. ▸ heq
        exact hb ▸ h.1
      · exact ih h.2 hrest

/-- An order-insensitive validator answers alike on `equiv` values, also
through `runValidation`. -/
theorem runValidation_congr {v : Option Validator} (hr : optRespects v)
    {a b : JsonValue} (h : JsonValue.equiv a b = true) :
    runValidation v a = runValidation v b := by
  cases v with
  | none => simp [runValidation]
  | some f => exact hr a b h

/-- Pointwise symmetry lifts to `equivList`. -/
theorem equivList_symm_pointwise :
    ∀ (xs ys : List JsonValue),
      (∀ x ∈ xs, ∀ y, JsonValue.equiv x y = true → JsonValue.equiv y x = true) →
      equivList xs ys = true → equivList ys xs = true := by
  intro xs
  induction xs with
  | nil => intro ys _ h; cases ys <;> simp_all [equivList]
  | cons x rest ih =>
      intro ys hpt h
      cases ys with
      | nil => simp [equivList] at h
      | cons y rys =>
          simp only [equivList, Bool.and_eq_true] at h ⊢
          refine ⟨hpt x (by simp) y h.1, ih rys ?_ h.2⟩
          intro x' hx' y' hy'
          exact hpt x' (List.mem_cons_of_mem _ hx') y' hy'

/-- `equiv` is symmetric. -/
theorem equiv_symm : ∀ (a b : JsonValue),
    JsonValue.equiv a b = true → JsonValue.equiv b a = true := by
  have main : ∀ (n : Nat) (a b : JsonValue), sizeOf a ≤ n →
      JsonValue.equiv a b = true → JsonValue.equiv b a = true := by
    intro n
    induction n with
    | zero =>
        intro a b hsz
        exfalso
        cases a <;> simp at hsz
    | succ n ih =>
        intro a b hsz h
        cases a with
        | str s => cases b <;> simp_all [JsonValue.equiv]
        | num m => cases b <;> simp_all [JsonValue.equiv]
        | bool t => cases b <;> simp_all [JsonValue.equiv]
        | null => cases b <;> simp_all [JsonValue.equiv]
        | arr xs =>
            cases b <;> simp_all [JsonValue.equiv]
            refine equivList_symm_pointwise xs _ ?_ h
            intro x hx y hxy
            have hx' : sizeOf x < sizeOf xs := List.sizeOf_lt_of_mem hx
            have : sizeOf (JsonValue.arr xs) = 1 + sizeOf xs := by simp
            exact ih x y (by omega) hxy
        | obj ms =>
            cases b <;> simp_all [JsonValue.equiv]
  intro a b
  exact main (sizeOf a) a b le_rfl

/-- Pointwise lookup coverage gives one direction of the object
comparison. -/
theorem equivMembers_of_pointwise :
    ∀ (a b : List (String × JsonValue)),
      (∀ p ∈ a, ∃ y, b.lookup p.1 = some y ∧ JsonValue.equiv p.2 y = true) →
      equivMembers a b = true := by
  intro a
  induction a with
  | nil => intro b _; simp [equivMembers]
  | cons p rest ih =>
      intro b hpt
      obtain ⟨k, x⟩ := p
      obtain ⟨y, hy, hxy⟩ := hpt (k, x) (by simp)
      simp only [equivMembers, Bool.and_eq_true]
      refine ⟨?_, ih b ?_⟩
      · split
        next y' h' =>
            rw [hy] at h'
            injection h' with h''
            subst h''
            exact hxy
        next h' =>
            rw [hy] at h'
            simp at h'
      · intro q hq
        exact hpt q (List.mem_cons_of_mem _ hq)

/-- If every element parses to an `equiv` value, the element loop succeeds
with a pointwise `equiv` list. -/
theorem parseItems_of_pointwise (item : Schema) :
    ∀ (xs : List JsonValue) (i : Nat),
      (∀ x ∈ xs, ∃ w, Schema.parse item x = .ok w ∧ JsonValue.equiv w x = true) →
      ∃ rs, parseItems item xs i = .ok rs ∧ equivList rs xs = true := by
  intro xs
  induction xs with
  | nil => exact fun i _ => ⟨[], by simp [parseItems], by simp [equivList]⟩
  | cons x rest ih =>
      intro i hpt
      obtain ⟨w, hw, hwx⟩ := hpt x (by simp)
      obtain ⟨rs, hrs, hrse⟩ := ih (i + 1) (fun y hy => hpt y (List.mem_cons_of_mem _ hy))
      exact ⟨w :: rs, by simp [parseItems, hw, hrs], by simp [equivList, hwx, hrse]⟩

/-- If every declared-and-present field parses to an `equiv` value and the
shape conformance holds, the field loop succeeds; every produced entry is
`equiv` to its input value, and every input value under a declared key is
covered by the result. -/
theorem parseFields_of_pointwise :
    ∀ (shape : List (String × Schema)) (ms : List (String × JsonValue)),
      (∀ k sch x, (k, sch) ∈ shape → ms.lookup k = some x → conforms sch x = true →
          ∃ w, Schema.parse sch x = .ok w ∧ JsonValue.equiv w x = true) →
      conformsFields shape ms = true →
      ∃ r, parseFields shape ms = .ok r ∧
        (∀ p ∈ r, ∃ x, ms.lookup p.1 = some x ∧ JsonValue.equiv p.2 x = true) ∧
        (∀ k x, ms.lookup k = some x → (shape.any (fun q => q.1 == k)) = true →
            ∃ w, r.lookup k = some w ∧ JsonValue.equiv w x = true) := by
  intro shape
  induction shape with
  | nil =>
      intro ms _ _
      refine ⟨[], by simp [parseFields], by simp, ?_⟩
      intro k x _ hany
      simp at hany
  | cons p rest ih =>
      obtain ⟨k₀, sch⟩ := p
      intro ms hpt hcf
      have hpt' : ∀ k sch' x, (k, sch') ∈ rest → ms.lookup k = some x →
          conforms sch' x = true →
          ∃ w, Schema.parse sch' x = .ok w ∧ JsonValue.equiv w x = true :=
        fun k sch' x hmem => hpt k sch' x (List.mem_cons_of_mem _ hmem)
      cases hlk : ms.lookup k₀ with
      | none =>
          have hcf' : sch.isOptional = true ∧ conformsFields rest ms = true := by
            simp only [conformsFields, hlk, Bool.and_eq_true] at hcf
            exact hcf
          obtain ⟨rs, hrs, hcov₁, hcov₂⟩ := ih ms hpt' hcf'.2
          refine ⟨rs, by simp [parseFields, hlk, hcf'.1, hrs], hcov₁, ?_⟩
          intro k x hlk' hany
          have hany' : rest.any (fun q => q.1 == k) = true := by
            simp only [List.any_cons, Bool.or_eq_true] at hany
            rcases hany with h1 | h2
            · exfalso
              rw [beq_iff_eq.mp h1] at hlk
              rw [hlk] at hlk'
              exact Option.noConfusion hlk'
            · exact h2
          exact hcov₂ k x hlk' hany'
      | some x =>
          have hcf₁ : conforms sch x = true ∧ conformsFields rest ms = true := by
            simp only [conformsFields, hlk, Bool.and_eq_true] at hcf
            exact hcf
          obtain ⟨w, hw, hwx⟩ := hpt k₀ sch x (by simp) hlk hcf₁.1
          obtain ⟨rs, hrs, hcov₁, hcov₂⟩ := ih ms hpt' hcf₁.2
          refine ⟨(k₀, w) :: rs, by simp [parseFields, hlk, hw, hrs], ?_, ?_⟩
          · intro p hp
            rcases List.mem_cons.mp hp with heq | hrest
            · subst heq
              exact ⟨x, hlk, hwx⟩
            · exact hcov₁ p hrest
          · intro k x' hlk' hany
            by_cases hk : k₀ = k
            · subst hk
              have hx' : x' = x := by
                rw [hlk] at hlk'
                exact (Option.some.injEq .. ▸ hlk').symm
              exact ⟨w, by simp [List.lookup], hx' ▸ hwx⟩
            · have hany' : rest.any (fun q => q.1 == k) = true := by
                simp only [List.any_cons, Bool.or_eq_true] at hany
                rcases hany with h1 | h2
                · exact absurd (beq_iff_eq.mp h1) hk
                · exact h2
              obtain ⟨w', hw', hwx'⟩ := hcov₂ k x' hlk' hany'
              have hb : (k == k₀) = false := beq_eq_false_iff_ne.mpr (fun hh => hk hh.symm)
              exact ⟨w', by simp [List.lookup, hb, hw'], hwx'⟩

/-- Round-trip workhorse, by strong induction on the size of the value: a
well-formed conforming value parses successfully to an `equiv` value. -/
theorem roundtrip_aux : ∀ (n : Nat) (v : JsonValue), sizeOf v ≤ n → ∀ s : Schema,
    Schema.respects s → v.wf = true → conforms s v = true →
    ∃ w, Schema.parse s v = .ok w ∧ JsonValue.equiv w v = true := by
  intro n
  induction n with
  | zero =>
      intro v hsz
      exfalso
      cases v <;> simp at hsz
  | succ n ih =>
      intro v hsz s hresp hwf hcf
      cases s with
      | str v' o =>
          cases v with
          | str a =>
              simp only [conforms] at hcf
              exact ⟨.str a, by simp [Schema.parse, jsTypeof, hcf], by simp [JsonValue.equiv]⟩
          | num a => simp [conforms] at hcf
          | bool a => simp [conforms] at hcf
          | null => simp [conforms] at hcf
          | arr xs => simp [conforms] at hcf
          | obj ms => simp [conforms] at hcf
      | num v' o =>
          cases v with
          | num a =>
              simp only [conforms] at hcf
              exact ⟨.num a, by simp [Schema.parse, jsTypeof, hcf], by simp [JsonValue.equiv]⟩
          | str a => simp [conforms] at hcf
          | bool a => simp [conforms] at hcf
          | null => simp [conforms] at hcf
          | arr xs => simp [conforms] at hcf
          | obj ms => simp [conforms] at hcf
      | bool v' o =>
          cases v with
          | bool a =>
              simp only [conforms] at hcf
              exact ⟨.bool a, by simp [Schema.parse, jsTypeof, hcf], by simp [JsonValue.equiv]⟩
          | str a => simp [conforms] at hcf
          | num a => simp [conforms] at hcf
          | null => simp [conforms] at hcf
          | arr xs => simp [conforms] at hcf
          | obj ms => simp [conforms] at hcf
      | arr item v' o =>
          cases v with
          | arr xs =>
              simp only [conforms, Bool.and_eq_true] at hcf
              simp only [JsonValue.wf] at hwf
              simp only [Schema.respects] at hresp
              have hpt : ∀ x ∈ xs, ∃ w, Schema.parse item x = .ok w ∧
                  JsonValue.equiv w x = true := by
                intro x hx
                have h1 : sizeOf x < sizeOf xs := List.sizeOf_lt_of_mem hx
                have h2 : sizeOf (JsonValue.arr xs) = 1 + sizeOf xs := by simp
                exact ih x (by omega) item hresp.2 (wfList_mem hwf hx)
                  (conformsList_mem hcf.1 hx)
              obtain ⟨rs, hrs, hrse⟩ := parseItems_of_pointwise item xs 0 hpt
              have hval : runValidation v' (.arr rs) = true := by
                rw [runValidation_congr hresp.1
                  (show JsonValue.equiv (.arr rs) (.arr xs) = true by
                    simp [JsonValue.equiv, hrse])]
                exact hcf.2
              exact ⟨.arr rs, by simp [Schema.parse, hrs, hval],
                by simp [JsonValue.equiv, hrse]⟩
          | str a => simp [conforms] at hcf
          | num a => simp [conforms] at hcf
          | bool a => simp [conforms] at hcf
          | null => simp [conforms] at hcf
          | obj ms => simp [conforms] at hcf
      | obj shape v' o =>
          cases v with
          | obj ms =>
              simp only [conforms, Bool.and_eq_true] at hcf
              obtain ⟨⟨hall, hcfs⟩, hval⟩ := hcf
              simp only [JsonValue.wf, Bool.and_eq_true] at hwf
              simp only [Schema.respects] at hresp
              have hpt : ∀ k sch x, (k, sch) ∈ shape → ms.lookup k = some x →
                  conforms sch x = true →
                  ∃ w, Schema.parse sch x = .ok w ∧ JsonValue.equiv w x = true := by
                intro k sch x hmem hlk hc
                have h1 : sizeOf x < sizeOf ms := sizeOf_lookup hlk
                have h2 : sizeOf (JsonValue.obj ms) = 1 + sizeOf ms := by simp
                exact ih x (by omega) sch (shapeRespects_mem hresp.2 hmem)
                  (wfMembers_mem hwf.2 (lookup_mem hlk)) hc
              obtain ⟨r, hr, hcov₁, hcov₂⟩ := parseFields_of_pointwise shape ms hpt hcfs
              have hmemb₁ : equivMembers r ms = true := equivMembers_of_pointwise r ms hcov₁
              have hmemb₂ : equivMembers ms r = true := by
                apply equivMembers_of_pointwise
                intro p hp
                obtain ⟨k, x⟩ := p
                have hlkp : ms.lookup k = some x := nodup_lookup_mem hwf.1 hp
                have hdecl : shape.any (fun q => q.1 == k) = true :=
                  List.all_eq_true.mp hall (k, x) hp
                obtain ⟨w, hw, hwx⟩ := hcov₂ k x hlkp hdecl
                exact ⟨w, hw, equiv_symm _ _ hwx⟩
              have hval' : runValidation v' (.obj r) = true := by
                rw [runValidation_congr hresp.1
                  (show JsonValue.equiv (.obj r) (.obj ms) = true by
                    simp [JsonValue.equiv, hmemb₁, hmemb₂])]
                exact hval
              exact ⟨.obj r, by simp [Schema.parse, hr, hval'],
                by simp [JsonValue.equiv, hmemb₁, hmemb₂]⟩
          | str a => simp [conforms] at hcf
          | num a => simp [conforms] at hcf
          | bool a => simp [conforms] at hcf
          | null => simp [conforms] at hcf
          | arr xs => simp [conforms] at hcf

/-! ### Claim theorems -/

/-- Claim C2: round-trip identity — for every schema tree and every
well-formed value `v` that conforms to it (has the schema's shape with no
undeclared object keys, contains all required fields, and every attached
validator accepts its node's value), `parse` on `v` succeeds and returns
`v` exactly, where "exactly" is equality up to object field order
(`JsonValue.equiv`), the comparison under which the spec states the
property.  `Schema.respects` restricts validators to genuine predicates
over values — ones that cannot distinguish `equiv` representations —
matching the typed validator signatures of the source. -/
theorem claim_C2 (s : Schema) (v : JsonValue) (hresp : Schema.respects s)
    (hwf : JsonValue.wf v = true) (hcf : conforms s v = true) :
    ∃ w, Schema.parse s v = .ok w ∧ JsonValue.equiv w v = true :=
  roundtrip_aux (sizeOf v) v le_rfl s hresp hwf hcf

/-- Witness for claim C2: spec scenario 4 with the optional field present
and the input members in the reverse of declaration order; the parse
succeeds and returns an `equiv` value. -/
theorem claim_C2_witness :
    ∃ w, Schema.parse (.obj [("name", .str none false), ("age", .num none true)] none false)
        (.obj [("age", .num 30), ("name", .str "John")]) = .ok w ∧
      JsonValue.equiv w (.obj [("age", .num 30), ("name", .str "John")]) = true :=
  claim_C2 _ _
    (by simp [Schema.respects, shapeRespects, optRespects])
    (by simp [JsonValue.wf, nodupKeys, wfMembers, List.lookup])
    (by simp [conforms, conformsFields, runValidation, List.lookup])

/-- Claim C1: in an `ObjectSchema` parse of a JSON object, declared fields
are processed in declaration order; a field whose key is absent from the
input is skipped entirely when its schema is optional (the whole parse
coincides with the parse of the schema without that field, so the result
holds no such key and the field's validator is never consulted), and
aborts with `missingRequiredProperty` naming the key when its schema is
not optional (given that the earlier-declared fields processed without
failure). -/
theorem claim_C1 (shape₁ shape₂ : List (String × Schema)) (v : Option Validator) (o : Bool)
    (ms : List (String × JsonValue)) (k : String) (sch : Schema)
    (habs : ms.lookup k = none) :
    (sch.isOptional = true →
      Schema.parse (.obj (shape₁ ++ (k, sch) :: shape₂) v o) (.obj ms) =
        Schema.parse (.obj (shape₁ ++ shape₂) v o) (.obj ms)) ∧
    (sch.isOptional = false → ∀ r₁, parseFields shape₁ ms = .ok r₁ →
      Schema.parse (.obj (shape₁ ++ (k, sch) :: shape₂) v o) (.obj ms) =
        .error (.missingRequiredProperty k)) := by
  constructor
  · intro hopt
    have hmid : parseFields ((k, sch) :: shape₂) ms = parseFields shape₂ ms := by
      simp [parseFields, habs, hopt]
    simp [Schema.parse, parseFields_append, hmid]
  · intro hreq r₁ h₁
    have hmid : parseFields ((k, sch) :: shape₂) ms =
        .error (.missingRequiredProperty k) := by
      simp [parseFields, habs, hreq]
    simp [Schema.parse, parseFields_append, h₁, hmid]

/-- Witness for claim C1: the schema of spec scenario 4/5 — an absent
optional `age` is skipped (the parse equals the parse without the field),
and an absent required `age` is a `missingRequiredProperty`. -/
theorem claim_C1_witness :
    Schema.parse (.obj [("name", .str none false), ("age", .num none true)] none false)
        (.obj [("name", .str "John")]) =
      Schema.parse (.obj [("name", .str none false)] none false)
        (.obj [("name", .str "John")]) ∧
    Schema.parse (.obj [("name", .str none false), ("age", .num none false)] none false)
        (.obj [("name", .str "John")]) =
      .error (.missingRequiredProperty "age") :=
  ⟨(claim_C1 [("name", .str none false)] [] none false [("name", .str "John")] "age"
      (.num none true) (by simp [List.lookup])).1 rfl,
   (claim_C1 [("name", .str none false)] [] none false [("name", .str "John")] "age"
      (.num none false) (by simp [List.lookup])).2 rfl [("name", .str "John")]
      (by simp [parseFields, List.lookup, Schema.parse, jsTypeof, runValidation])⟩

/-- Claim C3: parse is fail-fast and wraps with positional context — in an
`ArraySchema`, once the elements before position `i` have parsed, a
failure of element `i` makes the whole parse that failure wrapped with
index `i`, whatever the later elements are (they are never examined, as
the conclusion does not depend on them); in an `ObjectSchema`, once the
earlier-declared fields have processed, a failing field makes the whole
parse that failure wrapped with its key, whatever the later-declared
fields are — so with two invalid fields only the first-declared one is
ever reported, and no level recovers from an inner failure. -/
theorem claim_C3 :
    (∀ (item : Schema) (v : Option Validator) (o : Bool) (pre : List JsonValue) (x : JsonValue)
        (suf : List JsonValue) (e : ParseError) (rpre : List JsonValue),
        parseItems item pre 0 = .ok rpre → Schema.parse item x = .error e →
        Schema.parse (.arr item v o) (.arr (pre ++ x :: suf)) =
          .error (.arrayItemFailed pre.length e)) ∧
    (∀ (shape₁ shape₂ : List (String × Schema)) (v : Option Validator) (o : Bool)
        (ms : List (String × JsonValue)) (k : String) (sch : Schema) (val : JsonValue)
        (e : ParseError) (r₁ : List (String × JsonValue)),
        parseFields shape₁ ms = .ok r₁ → ms.lookup k = some val →
        Schema.parse sch val = .error e →
        Schema.parse (.obj (shape₁ ++ (k, sch) :: shape₂) v o) (.obj ms) =
          .error (.propertyFailed k e)) := by
  constructor
  · intro item v o pre x suf e rpre hpre hx
    have hmid : parseItems item (x :: suf) pre.length =
        .error (.arrayItemFailed pre.length e) := by
      simp [parseItems, hx]
    simp [Schema.parse, parseItems_append, hpre, hmid]
  · intro shape₁ shape₂ v o ms k sch val e r₁ h₁ hlk hp
    have hmid : parseFields ((k, sch) :: shape₂) ms = .error (.propertyFailed k e) := by
      simp [parseFields, hlk, hp]
    simp [Schema.parse, parseFields_append, h₁, hmid]

/-- Witness for claim C3: spec scenario 3 for arrays, and an object with
two invalid declared fields (`b` and `c`) reporting only the
first-declared one. -/
theorem claim_C3_witness :
    Schema.parse (.arr (.num none false) none false) (.arr [.num 1, .str "x", .num 3]) =
      .error (.arrayItemFailed 1 (.typeMismatch "number" "string")) ∧
    Schema.parse
        (.obj [("a", .num none false), ("b", .num none false), ("c", .num none false)]
          none false)
        (.obj [("a", .num 1), ("b", .str "u"), ("c", .str "w")]) =
      .error (.propertyFailed "b" (.typeMismatch "number" "string")) :=
  ⟨claim_C3.1 (.num none false) none false [.num 1] (.str "x") [.num 3]
      (.typeMismatch "number" "string") [.num 1]
      (by simp [parseItems, Schema.parse, jsTypeof, runValidation])
      (by simp [Schema.parse, jsTypeof]),
   claim_C3.2 [("a", .num none false)] [("c", .num none false)] none false
      [("a", .num 1), ("b", .str "u"), ("c", .str "w")] "b" (.num none false) (.str "u")
      (.typeMismatch "number" "string") [("a", .num 1)]
      (by simp [parseFields, List.lookup, Schema.parse, jsTypeof, runValidation])
      (by simp [List.lookup])
      (by simp [Schema.parse, jsTypeof])⟩

/-- Claim C4: for every schema variant, `stringify` renders the base type
text followed, when a validator and/or the optional flag is present, by
exactly one comment block of the comma-space-joined hints (validator
display text first, then the word `optional`), and no block otherwise; the
rendering is the one shared routine `buildStringifyResult` for all five
variants, and the output does not depend on the order in which `validate`
and `optional` were called. -/
theorem claim_C4 (s : Schema) (f : Validator) :
    (∀ (v : Option Validator) (o : Bool) (base : String),
        buildStringifyResult v o base = base ++ specHintComment (v.map Validator.display) o) ∧
    s.stringify =
      baseTypeText s ++
        specHintComment ((Schema.validationFn s).map Validator.display) (Schema.isOptional s) ∧
    ((s.validate f).optional).stringify = ((s.optional).validate f).stringify :=
  ⟨buildStringifyResult_eq_spec, stringify_eq_base_hint s, by rw [validate_optional_comm]⟩

/-- Claim C7: `ObjectSchema.stringify` returns the brace-wrapped
comma-space-joined `key: childStringify` entries with fields in declaration
order, followed by the hint comment; the output is deterministic (it is a
pure function of the schema, so two renderings coincide). -/
theorem claim_C7 (shape : List (String × Schema)) (v : Option Validator) (o : Bool) :
    Schema.stringify (.obj shape v o) =
      "\x7b " ++ String.intercalate ", " (shape.map (fun p => p.1 ++ ": " ++ p.2.stringify))
        ++ " \x7d"
        ++ specHintComment (v.map Validator.display) o ∧
    Schema.stringify (.obj shape v o) = Schema.stringify (.obj shape v o) := by
  refine ⟨?_, rfl⟩
  simp [Schema.stringify, buildStringifyResult_eq_spec, stringifyShape_eq_map]

/-- Claim C5: JSON `null` always fails type checks and is never an absence
signal — each primitive schema rejects it with a `typeMismatch` whose
actual kind is `object`; an `ObjectSchema` reports the actual kind `array`
exactly for array inputs and the host type tag otherwise (`object` for
`null`); and a declared field bound to `null` takes the present-value path,
failing the field's type check instead of the optional skip. -/
theorem claim_C5 :
    (∀ (v : Option Validator) (o : Bool),
        Schema.parse (.str v o) .null = .error (.typeMismatch "string" "object") ∧
        Schema.parse (.num v o) .null = .error (.typeMismatch "number" "object") ∧
        Schema.parse (.bool v o) .null = .error (.typeMismatch "boolean" "object")) ∧
    (∀ (shape : List (String × Schema)) (v : Option Validator) (o : Bool),
        (∀ xs, Schema.parse (.obj shape v o) (.arr xs) =
          .error (.typeMismatch "object" "array")) ∧
        Schema.parse (.obj shape v o) .null = .error (.typeMismatch "object" "object") ∧
        (∀ t, Schema.parse (.obj shape v o) (.str t) =
          .error (.typeMismatch "object" "string")) ∧
        (∀ n, Schema.parse (.obj shape v o) (.num n) =
          .error (.typeMismatch "object" "number")) ∧
        (∀ b, Schema.parse (.obj shape v o) (.bool b) =
          .error (.typeMismatch "object" "boolean"))) ∧
    (∀ (k : String) (sch : Schema) (rest : List (String × Schema))
        (ms : List (String × JsonValue)),
        ms.lookup k = some .null →
        ∃ e a, parseFields ((k, sch) :: rest) ms =
          .error (.propertyFailed k (.typeMismatch e a))) := by
  refine ⟨?_, ?_, ?_⟩
  · intro v o
    refine ⟨?_, ?_, ?_⟩ <;> simp [Schema.parse, jsTypeof]
  · intro shape v o
    refine ⟨?_, ?_, ?_, ?_, ?_⟩ <;> intros <;> simp [Schema.parse, jsTypeof, isJsArray]
  · intro k sch rest ms hlk
    obtain ⟨e, a, he⟩ := parse_null_typeMismatch sch
    exact ⟨e, a, by simp [parseFields, hlk, he]⟩

/-- Witness for claim C5 at a concrete input: the field `x` is declared
optional yet bound to `null`, and the parse reports a wrapped type
mismatch rather than skipping the field. -/
theorem claim_C5_witness :
    ∃ e a, parseFields [("x", Schema.num none true)] [("x", JsonValue.null)] =
      .error (.propertyFailed "x" (.typeMismatch e a)) :=
  claim_C5.2.2 "x" (.num none true) [] [("x", .null)] (by simp [List.lookup])

/-- Claim C8: the optional flag has no parse-time effect outside an object
field position — marking any schema optional leaves its `parse` function
extensionally unchanged, and an `ArraySchema` over an optional item schema
parses every input exactly as over the unmarked item schema. -/
theorem claim_C8 :
    (∀ (s : Schema) (x : JsonValue), (Schema.optional s).parse x = s.parse x) ∧
    (∀ (item : Schema) (v : Option Validator) (o : Bool) (x : JsonValue),
        Schema.parse (.arr (Schema.optional item) v o) x = Schema.parse (.arr item v o) x) := by
  refine ⟨parse_optional, ?_⟩
  intro item v o x
  cases x <;> simp [Schema.parse, parseItems_optional]

/-- Claim C9: an `ArraySchema` on an empty array input never reaches a
type-mismatch or per-item failure — the result does not depend on the item
schema at all, and is the empty array whenever the array-level validator
accepts the empty array. -/
theorem claim_C9 (item₁ item₂ : Schema) (v : Option Validator) (o : Bool) :
    Schema.parse (.arr item₁ v o) (.arr []) = Schema.parse (.arr item₂ v o) (.arr []) ∧
    (runValidation v (.arr []) = true →
      Schema.parse (.arr item₁ v o) (.arr []) = .ok (.arr [])) := by
  constructor
  · simp [Schema.parse, parseItems]
  · intro h
    simp [Schema.parse, parseItems, h]

/-- Witness for claim C9: a number-item schema and a string-item schema
agree on the empty array, which parses to the empty array. -/
theorem claim_C9_witness :
    Schema.parse (.arr (.num none false) none false) (.arr []) =
        Schema.parse (.arr (.str none false) none false) (.arr []) ∧
    Schema.parse (.arr (.num none false) none false) (.arr []) = .ok (.arr []) :=
  ⟨(claim_C9 (.num none false) (.str none false) none false).1,
   (claim_C9 (.num none false) (.str none false) none false).2 rfl⟩

/-- Claim C6: keys present in the input object but not declared in the
schema never cause a failure and are not copied to the output — dropping
such a member leaves the whole parse unchanged, a successful result binds
no undeclared key, and the object-level validator runs on the assembled
result (which, per claim C1, holds no entry for skipped optional
fields). -/
theorem claim_C6 :
    (∀ (shape : List (String × Schema)) (v : Option Validator) (o : Bool)
        (ms₁ ms₂ : List (String × JsonValue)) (k : String) (x : JsonValue),
        shape.all (fun p => p.1 != k) = true →
        Schema.parse (.obj shape v o) (.obj (ms₁ ++ (k, x) :: ms₂)) =
          Schema.parse (.obj shape v o) (.obj (ms₁ ++ ms₂))) ∧
    (∀ (shape : List (String × Schema)) (v : Option Validator) (o : Bool)
        (ms : List (String × JsonValue)) (w : JsonValue) (k : String),
        Schema.parse (.obj shape v o) (.obj ms) = .ok w →
        shape.all (fun p => p.1 != k) = true →
        ∃ r, w = .obj r ∧ r.lookup k = none) ∧
    (∀ (shape : List (String × Schema)) (v : Option Validator) (o : Bool)
        (ms r : List (String × JsonValue)),
        parseFields shape ms = .ok r →
        Schema.parse (.obj shape v o) (.obj ms) =
          if runValidation v (.obj r) = true then .ok (.obj r)
          else .error (.validationFailed (.obj r))) := by
  refine ⟨?_, ?_, ?_⟩
  · intro shape v o ms₁ ms₂ k x hund
    simp [Schema.parse, parseFields_ignore shape k x ms₁ ms₂ hund]
  · intro shape v o ms w k h hund
    cases hf : parseFields shape ms with
    | error e => simp [Schema.parse, hf] at h
    | ok r =>
        cases hv : runValidation v (.obj r) with
        | false => simp [Schema.parse, hf, hv] at h
        | true =>
            simp [Schema.parse, hf, hv] at h
            refine ⟨r, h.symm, lookup_eq_none_of_not_mem r k ?_⟩
            rw [parseFields_keys shape ms r hf]
            intro hmem
            simp only [List.mem_map] at hmem
            obtain ⟨p, hp, hpk⟩ := hmem
            have hps := List.mem_of_mem_filter hp
            have := (List.all_eq_true.mp hund) p hps
            simp [hpk] at this
  · intro shape v o ms r hf
    cases hv : runValidation v (.obj r) <;> simp [Schema.parse, hf, hv]

/-- Witness for claim C6: an undeclared `extra` member is dropped without
effect, and the parse outcome is the validator branch on the assembled
result. -/
theorem claim_C6_witness :
    Schema.parse (.obj [("a", .num none false)] none false)
        (.obj [("extra", .bool true), ("a", .num 5)]) =
      Schema.parse (.obj [("a", .num none false)] none false) (.obj [("a", .num 5)]) ∧
    Schema.parse (.obj [("a", .num none false)] none false) (.obj [("a", .num 5)]) =
      if runValidation none (.obj [("a", .num 5)]) = true then .ok (.obj [("a", .num 5)])
      else .error (.validationFailed (.obj [("a", .num 5)])) :=
  ⟨claim_C6.1 [("a", .num none false)] none false [] [("a", .num 5)] "extra" (.bool true)
      (by simp),
   claim_C6.2.2 [("a", .num none false)] none false [("a", .num 5)] [("a", .num 5)]
      (by simp [parseFields, List.lookup, Schema.parse, jsTypeof, runValidation])⟩

/-- Claim C10: a successful `ObjectSchema.parse` assembles its result by
inserting one field at a time while iterating the declared shape, so the
result's key enumeration order is the declaration order restricted to the
materialized fields, independent of input member order. -/
theorem claim_C10 (shape : List (String × Schema)) (v : Option Validator) (o : Bool)
    (ms : List (String × JsonValue)) (w : JsonValue)
    (h : Schema.parse (.obj shape v o) (.obj ms) = .ok w) :
    ∃ r, w = .obj r ∧
      r.map Prod.fst = (shape.filter (fun p => (ms.lookup p.1).isSome)).map Prod.fst := by
  cases hf : parseFields shape ms with
  | error e => simp [Schema.parse, hf] at h
  | ok r =>
      cases hv : runValidation v (.obj r) with
      | false => simp [Schema.parse, hf, hv] at h
      | true =>
          simp [Schema.parse, hf, hv] at h
          exact ⟨r, h.symm, parseFields_keys shape ms r hf⟩

/-- Witness for claim C10: input members arrive in reverse order with the
optional `b` absent; the result enumerates `a` then `c`, the declaration
order restricted to present fields. -/
theorem claim_C10_witness :
    ∃ r, (JsonValue.obj [("a", .num 1), ("c", .str "z")]) = .obj r ∧
      r.map Prod.fst =
        (([("a", Schema.num none false), ("b", Schema.num none true),
            ("c", Schema.str none false)]).filter
          (fun p => (([("c", JsonValue.str "z"), ("a", JsonValue.num 1)]).lookup p.1).isSome)).map
          Prod.fst :=
  claim_C10 [("a", .num none false), ("b", .num none true), ("c", .str none false)] none false
    [("c", .str "z"), ("a", .num 1)] (.obj [("a", .num 1), ("c", .str "z")])
    (by simp [Schema.parse, parseFields, List.lookup, Schema.isOptional, jsTypeof, runValidation])

end Structlm
